import Mathlib

/-!
Verification of `BaikalIO/material_io.cpp` (XML material IO for Baikal).

The definitions below are a shallow embedding of the C++ source.  XML
parsing itself is out of scope (the source delegates it to tinyxml2), so
documents are modelled at the level tinyxml2 hands back to the code:
records with string attributes and child input elements.  Materials are
heap objects mutated through `SetInputValue`; we model the heap as a list
of material objects indexed by allocation order, and every `std::map` /
`std::set` as an association list with the corresponding C++ semantics
(`operator[]` overwrites, `emplace` inserts only when the key is absent,
`std::set` iteration is in comparator order).
-/

namespace MatIo

/-- Association-list lookup, first binding wins (std::map::find). -/
def alookup [DecidableEq κ] (k : κ) : List (κ × α) → Option α
  | [] => none
  | (k0, v) :: rest => if k0 = k then some v else alookup k rest

/-- std::map `operator[] =` : replace the binding if the key is present,
append it otherwise. -/
def mapInsert [DecidableEq κ] (k : κ) (v : α) : List (κ × α) → List (κ × α)
  | [] => [(k, v)]
  | (k0, v0) :: rest =>
    if k0 = k then (k, v) :: rest else (k0, v0) :: mapInsert k v rest

/-- std::map::emplace : insert only when the key is absent. -/
def emplaceMap [DecidableEq κ] (k : κ) (v : α) (m : List (κ × α)) : List (κ × α) :=
  match alookup k m with
  | some _ => m
  | none => m ++ [(k, v)]

@[simp] theorem alookup_nil [DecidableEq κ] (k : κ) :
    alookup (α := α) k [] = none := rfl

@[simp] theorem alookup_cons [DecidableEq κ] (k k0 : κ) (v : α) (l : List (κ × α)) :
    alookup k ((k0, v) :: l) = if k0 = k then some v else alookup k l := rfl

theorem alookup_mapInsert [DecidableEq κ] (k k0 : κ) (v : α) (l : List (κ × α)) :
    alookup k (mapInsert k0 v l) = if k0 = k then some v else alookup k l := by
  induction l with
  | nil => simp [mapInsert]
  | cons p rest ih =>
    obtain ⟨k1, v1⟩ := p
    by_cases h1 : k1 = k0
    · subst h1
      by_cases h2 : k1 = k <;> simp [mapInsert, h2]
    · by_cases h2 : k1 = k
      · subst h2
        have hk : ¬k0 = k1 := fun h => h1 h.symm
        simp [mapInsert, h1, hk]
      · simp [mapInsert, h1, h2, ih]

theorem alookup_append [DecidableEq κ] (k : κ) (l1 l2 : List (κ × α)) :
    alookup k (l1 ++ l2) =
      match alookup k l1 with
      | some v => some v
      | none => alookup k l2 := by
  induction l1 with
  | nil => simp
  | cons p rest ih =>
    obtain ⟨k1, v1⟩ := p
    by_cases h1 : k1 = k <;> simp [h1, ih]

/-! ## C1 — the dependency collector of `SaveMaterialsFromScene`

The per-shape lambda keeps a result set `mats` and an explicit stack.
It pops a material, emplaces it into the set, and then unconditionally
pushes every dependency returned by `CreateMaterialIterator` — there is
no check whether the popped node was already expanded.  Materials are
identified by handle (`Nat`); `deps` models the dependency iterator.
The C++ `while` loop is embedded with an explicit fuel parameter: the
loop terminates if and only if some fuel suffices. -/

/-- std::set::emplace on the result set: add the handle if absent. -/
def emplaceElem (x : Nat) (l : List Nat) : List Nat :=
  if x ∈ l then l else l ++ [x]

/-- The stack-draining loop of the collector lambda
(`material_io.cpp:387-404`).  One iteration pops `m`, emplaces it into
the set and pushes all of `deps m` (pushing in list order leaves the
last dependency on top, hence the reverse).  `none` means the fuel ran
out with the stack still non-empty. -/
def collectLoop (deps : Nat → List Nat) (fuel : Nat) (stack : List Nat)
    (mats : List Nat) : Option (List Nat) :=
  match stack with
  | [] => some mats
  | m :: rest =>
    match fuel with
    | 0 => none
    | f + 1 => collectLoop deps f ((deps m).reverse ++ rest) (emplaceElem m mats)

/-- The whole lambda body for one shape: seed the stack with the shape's
material when present (`material_io.cpp:377-384`) and drain it. -/
def collectFromShape (deps : Nat → List Nat) (fuel : Nat) (shapeMat : Option Nat) :
    Option (List Nat) :=
  match shapeMat with
  | none => some []
  | some m => collectLoop deps fuel [m] []

/-- The two-node cyclic dependency graph: material 0 depends on 1 and
material 1 depends on 0. -/
def cycDeps : Nat → List Nat :=
  fun n => if n = 0 then [1] else if n = 1 then [0] else []

theorem collectLoop_cyc_stuck (fuel : Nat) :
    ∀ (stack mats : List Nat), stack ≠ [] → (∀ x ∈ stack, x ≤ 1) →
      collectLoop cycDeps fuel stack mats = none := by
  induction fuel with
  | zero =>
    intro stack mats hne _
    match stack with
    | [] => exact absurd rfl hne
    | m :: rest => rfl
  | succ f ih =>
    intro stack mats hne hb
    match stack with
    | [] => exact absurd rfl hne
    | m :: rest =>
      have hm : m ≤ 1 := hb m (List.mem_cons_self m rest)
      show collectLoop cycDeps f ((cycDeps m).reverse ++ rest) (emplaceElem m mats) = none
      apply ih
      · -- the pushed dependency list is never empty for nodes 0 and 1
        interval_cases m <;> simp [cycDeps]
      · intro x hx
        rcases List.mem_append.mp hx with hx | hx
        · rw [List.mem_reverse] at hx
          interval_cases m <;> simp_all [cycDeps]
        · exact hb x (List.mem_cons_of_mem m hx)

/-- C1: the claim asserts the collector traversal terminates on cyclic
material graphs because dependencies are enumerated only the first time a
node is popped.  The source has no such expanded marker: every pop
re-enumerates the dependencies, so on the two-node cycle the stack never
empties and no amount of fuel makes the loop finish. -/
theorem C1_collector_cycle_diverges (fuel : Nat) :
    collectFromShape cycDeps fuel (some 0) = none := by
  show collectLoop cycDeps fuel [0] [] = none
  apply collectLoop_cyc_stuck
  · simp
  · intro x hx
    simp at hx
    omega

/-! ## C2 — `WriteMaterial` vs `LoadMaterial` kind dispatch

`WriteMaterial` (`material_io.cpp:121-189`) pushes the attributes
`name`, `id`, `thin` and, for an UberV2 material, `refraction_link_ior`,
`emission_doublesided`, `sss_multyscatter` and `layers` followed by the
bxdf/input block (the source references an undeclared variable `bxdf`
there, so the file does not even compile as given; the pushes modelled
below are the ones whose text is well formed, and none of the remaining
pushes names a `type` attribute either).  `LoadMaterial`
(`material_io.cpp:276-310`) starts by reading the `type` attribute and
accepts only `"simple"` and `"blend"`. -/

inductive LoadError where
  | unsupportedKind
  | unsupportedInputType
  | malformedRecord
deriving DecidableEq

inductive MatKind where
  | simple (bxdf : String)
  | blend (blendType : Nat)
deriving DecidableEq

/-- A material as seen by the writer. -/
structure WMat where
  name : String
  ident : Nat
  thin : Bool
  isUber : Bool
  linkIor : Bool
  doubleSided : Bool
  multiscatter : Bool
  layers : Nat

/-- tinyxml2 prints booleans as `true` / `false`. -/
def boolAttr (b : Bool) : String := if b then "true" else "false"

/-- The function atoi, restricted to the unsigned decimal strings appearing in these
documents: fold the leading digits, stop at the first non-digit. -/
def atoiDigits : List Char → Nat → Nat
  | [], n => n
  | c :: cs, n => if c.isDigit then atoiDigits cs (n * 10 + (c.toNat - 48)) else n

def atoiN (s : String) : Nat := atoiDigits s.data 0

/-- The attributes pushed by `WriteMaterial` for one material record, in
push order. -/
def writeMaterialAttrs (m : WMat) : List (String × String) :=
  [("name", m.name), ("id", toString m.ident), ("thin", boolAttr m.thin)] ++
    (if m.isUber then
      [("refraction_link_ior", boolAttr m.linkIor),
       ("emission_doublesided", boolAttr m.doubleSided),
       ("sss_multyscatter", boolAttr m.multiscatter),
       ("layers", toString m.layers)]
     else [])

/-- The kind dispatch at the top of `LoadMaterial`: read the `type`
attribute and construct the node.  When the attribute is missing the
source passes a null `char` pointer to `std::string`, which crashes; we
model that as a malformed-record failure.  An unrecognised tag throws
`"Unsupported material type"`. -/
def loadMaterialKind (attrs : List (String × String)) : Except LoadError MatKind :=
  match alookup "type" attrs with
  | none => .error .malformedRecord
  | some t =>
    if t = "simple" then .ok (MatKind.simple ((alookup "bxdf" attrs).getD ""))
    else if t = "blend" then .ok (MatKind.blend (atoiN ((alookup "blend_type" attrs).getD "")))
    else .error .unsupportedKind

/-- C2: the claim asserts that saving a node set and loading the result
reproduces it.  In the source the writer never pushes a `type`
attribute, while the loader's first step demands one with value
`"simple"` or `"blend"`; consequently loading any record produced by
`WriteMaterial` fails before a single input is examined, for every
material whatsoever. -/
theorem C2_write_load_kind_mismatch (m : WMat) :
    alookup "type" (writeMaterialAttrs m) = none ∧
      loadMaterialKind (writeMaterialAttrs m) = .error .malformedRecord := by
  obtain ⟨name, ident, thin, isUber, linkIor, doubleSided, multiscatter, layers⟩ := m
  cases isUber <;>
    refine ⟨?_, ?_⟩ <;>
      simp [writeMaterialAttrs, loadMaterialKind, alookup]

/-! ## The reader (`LoadMaterials`, `LoadMaterial`, `LoadInput`)

Documents are modelled post-parsing: a list of material records, each
with the attributes the loader reads and a list of input elements.
Float values are stored by their source text — the loader parses them
with `istringstream` into a `float4`, but no property below depends on
the float parse, only on which value reaches `SetInputValue`.  Loaded
texture assets are fresh handles numbered by `ImageIo::LoadImage` call
order; `imgLoads` is the trace of those calls.  `reqLog` is a ghost
trace of every `m_resolve_requests.emplace` attempt, in program order;
it changes no behaviour and only supports the statements about enqueue
order. -/

/-- One `<Input>` element: `name` and `type` attributes plus the raw
`value` text. -/
structure InputElem where
  name : String
  ty : String
  value : String
deriving DecidableEq

/-- One `<Material>` element with the attributes `LoadMaterial` reads. -/
structure MatRecord where
  name : String
  ty : String
  thin : String
  id : Nat
  bxdf : String
  blendType : Nat
  inputs : List InputElem
deriving DecidableEq

/-- Struct `ResolveRequest` from `material_io.cpp:50-60`: pending material
handle, input name, and target id.  Its `operator<` compares ids only,
so `std::set` treats two requests with equal ids as duplicates. -/
structure ResolveReq where
  mat : Nat
  input : String
  id : Nat
deriving DecidableEq

/-- A value as stored by `Material::SetInputValue`. -/
inductive SVal where
  | f4 (s : String)
  | tex (t : Nat)
  | mat (m : Option Nat)
deriving DecidableEq

/-- One constructed material object. -/
structure MatObj where
  name : String
  thin : Bool
  kind : MatKind
  inputs : List (String × SVal)
deriving DecidableEq

/-- The loader state: the heap of constructed materials plus the
instance fields `m_id2mat`, `m_name2tex`, `m_resolve_requests` of
`MaterialIoXML`; `texCtr`/`imgLoads` model the image store and `reqLog`
is the ghost enqueue trace. -/
structure LoadState where
  store : List MatObj
  id2mat : List (Nat × Option Nat)
  name2tex : List (String × Nat)
  requests : List ResolveReq
  reqLog : List ResolveReq
  texCtr : Nat
  imgLoads : List String
deriving DecidableEq

def initState : LoadState :=
  { store := [], id2mat := [], name2tex := [], requests := [], reqLog := [],
    texCtr := 0, imgLoads := [] }

/-- Update the element at an index, identity when out of range. -/
def updAt : List α → Nat → (α → α) → List α
  | [], _, _ => []
  | a :: as, 0, f => f a :: as
  | a :: as, n + 1, f => a :: updAt as n f

/-- Effect of `SetInputValue` on one material's input map: replace the binding for
the name, or append it. -/
def setInput (n : String) (v : SVal) : List (String × SVal) → List (String × SVal)
  | [] => [(n, v)]
  | (k, w) :: rest => if k = n then (n, v) :: rest else (k, w) :: setInput n v rest

/-- Effect of `SetInputValue` on the heap. -/
def setInputOf (h : Nat) (n : String) (v : SVal) (st : LoadState) : LoadState :=
  { st with store := updAt st.store h (fun o => { o with inputs := setInput n v o.inputs }) }

/-- Read back an input (for the statements only). -/
def getInputOf (st : LoadState) (h : Nat) (n : String) : Option SVal :=
  match st.store[h]? with
  | some o => alookup n o.inputs
  | none => none

/-- Emplace into `std::set<ResolveRequest>`: ordered insert by `id`; when an
element with an equal `id` is already present the emplace fails and the
set is unchanged.  The list is kept in iteration (increasing-id) order. -/
def emplaceReq (q : ResolveReq) : List ResolveReq → List ResolveReq
  | [] => [q]
  | x :: xs =>
    if q.id < x.id then q :: x :: xs
    else if x.id < q.id then x :: emplaceReq q xs
    else x :: xs

/-- Function `LoadInput` (`material_io.cpp:222-274`).  `h` is the handle of the
material under construction.  The texture branch looks the cache up
under the `value` attribute (the file name) but stores the freshly
loaded texture under the `name` attribute (the input name), exactly as
the source does.  The material branch resolves against `m_id2mat` or
enqueues a `ResolveRequest`. -/
def loadInput (h : Nat) (e : InputElem) (st : LoadState) : Except LoadError LoadState :=
  if e.ty = "float4" then .ok (setInputOf h e.name (SVal.f4 e.value) st)
  else if e.ty = "texture" then
    match alookup e.value st.name2tex with
    | some t => .ok (setInputOf h e.name (SVal.tex t) st)
    | none =>
      let t := st.texCtr
      let st1 := { st with texCtr := t + 1, imgLoads := st.imgLoads ++ [e.value] }
      let st2 := setInputOf h e.name (SVal.tex t) st1
      .ok { st2 with name2tex := mapInsert e.name t st2.name2tex }
  else if e.ty = "material" then
    match alookup (atoiN e.value) st.id2mat with
    | some mh => .ok (setInputOf h e.name (SVal.mat mh) st)
    | none =>
      let q : ResolveReq := ⟨h, e.name, atoiN e.value⟩
      .ok { st with requests := emplaceReq q st.requests, reqLog := st.reqLog ++ [q] }
  else .error .unsupportedInputType

/-- The input loop of `LoadMaterial` (`material_io.cpp:316-319`). -/
def loadInputs (h : Nat) : List InputElem → LoadState → Except LoadError LoadState
  | [], st => .ok st
  | e :: es, st =>
    match loadInput h e st with
    | .error err => .error err
    | .ok st1 => loadInputs h es st1

/-- The kind dispatch of `LoadMaterial` over a structured record. -/
def mkKind (r : MatRecord) : Except LoadError MatKind :=
  if r.ty = "simple" then .ok (MatKind.simple r.bxdf)
  else if r.ty = "blend" then .ok (MatKind.blend r.blendType)
  else .error .unsupportedKind

/-- Function `LoadMaterial` (`material_io.cpp:276-324`): construct the node, set
name and thin flag, process the inputs, and only then register the node
in `m_id2mat` under its declared id (overwriting any earlier entry). -/
def loadMaterialRec (r : MatRecord) (st : LoadState) : Except LoadError LoadState :=
  match mkKind r with
  | .error e => .error e
  | .ok k =>
    match loadInputs st.store.length r.inputs
        { st with store := st.store ++
            [{ name := r.name, thin := r.thin == "true", kind := k, inputs := [] }] } with
    | .error e => .error e
    | .ok st2 =>
      .ok { st2 with id2mat := mapInsert r.id (some st.store.length) st2.id2mat }

/-- Pass 1 of `LoadMaterials` (`material_io.cpp:345-349`). -/
def pass1Aux : List MatRecord → LoadState → Except LoadError LoadState
  | [], st => .ok st
  | r :: rs, st =>
    match loadMaterialRec r st with
    | .error e => .error e
    | .ok st1 => pass1Aux rs st1

/-- Pass 1 from the freshly cleared state (`material_io.cpp:328-330`). -/
def pass1 (doc : List MatRecord) : Except LoadError LoadState :=
  pass1Aux doc initState

/-- Lookup `m_id2mat[i.id]` in the resolution loop: `operator[]` returns the
mapped pointer, default-inserting a null entry when the id is absent. -/
def resolveLookup (st : LoadState) (i : Nat) : Option Nat × LoadState :=
  match alookup i st.id2mat with
  | some v => (v, st)
  | none => (none, { st with id2mat := mapInsert i none st.id2mat })

/-- One iteration of the resolution loop (`material_io.cpp:352-355`). -/
def resolveStep (st : LoadState) (q : ResolveReq) : LoadState :=
  setInputOf q.mat q.input (SVal.mat (resolveLookup st q.id).1) (resolveLookup st q.id).2

/-- Pass 2: drain `m_resolve_requests` in set-iteration order. -/
def resolveAll (st : LoadState) : LoadState :=
  st.requests.foldl resolveStep st

/-- Function `LoadMaterials` (`material_io.cpp:326-358`): both passes, returning
the final state together with the handles of the returned node set (the
`materials` set holds every constructed node, one per record). -/
def loadMaterials (doc : List MatRecord) : Except LoadError (LoadState × List Nat) :=
  match pass1 doc with
  | .error e => .error e
  | .ok st => .ok (resolveAll st, List.range st.store.length)

/-- Projection: the returned node handles, `none` on a failed load. -/
def resNodes (r : Except LoadError (LoadState × List Nat)) : Option (List Nat) :=
  match r with
  | .error _ => none
  | .ok p => some p.2

/-- Projection: the image-load trace, `none` on a failed load. -/
def resImgLoads (r : Except LoadError (LoadState × List Nat)) : Option (List String) :=
  match r with
  | .error _ => none
  | .ok p => some p.1.imgLoads

/-- Projection: a material input in the final state. -/
def resInput (r : Except LoadError (LoadState × List Nat)) (h : Nat) (n : String) :
    Option SVal :=
  match r with
  | .error _ => none
  | .ok p => getInputOf p.1 h n

/-! ## Concrete documents used by the counterexamples and witnesses -/

/-- One record whose only input is a material reference to id 42, an id
no record of the document declares. -/
def docUnresolved : List MatRecord :=
  [⟨"A", "simple", "", 1, "lambert", 0, [⟨"x", "material", "42"⟩]⟩]

/-- Two records whose inputs both target the forward id 99, followed by
the record declaring 99. -/
def docTwoFwd : List MatRecord :=
  [⟨"M0", "simple", "", 1, "lambert", 0, [⟨"x", "material", "99"⟩]⟩,
   ⟨"M1", "simple", "", 2, "lambert", 0, [⟨"y", "material", "99"⟩]⟩,
   ⟨"M2", "simple", "", 99, "lambert", 0, []⟩]

/-- Two records each with a texture input named `albedo` referencing the
same resource `checker.png`. -/
def docSharedTex : List MatRecord :=
  [⟨"T0", "simple", "", 1, "lambert", 0, [⟨"albedo", "texture", "checker.png"⟩]⟩,
   ⟨"T1", "simple", "", 2, "lambert", 0, [⟨"albedo", "texture", "checker.png"⟩]⟩]

/-- Two records declaring the same id 5, and a third whose input targets
that id (a pass-2 resolution). -/
def docDupIds : List MatRecord :=
  [⟨"A", "simple", "", 5, "lambert", 0, []⟩,
   ⟨"B", "simple", "", 5, "lambert", 0, []⟩,
   ⟨"C", "simple", "", 1, "lambert", 0, [⟨"z", "material", "5"⟩]⟩]

/-- A record declaring id 7 followed by a second record also declaring
id 7 whose input targets 7 (a self-reference by id). -/
def docDupSelf : List MatRecord :=
  [⟨"P", "simple", "", 7, "lambert", 0, []⟩,
   ⟨"Q", "simple", "", 7, "lambert", 0, [⟨"s", "material", "7"⟩]⟩]

/-- A single record whose input targets its own id. -/
def docSelf : List MatRecord :=
  [⟨"S", "simple", "", 7, "lambert", 0, [⟨"s", "material", "7"⟩]⟩]

/-- C3, counterexample: the claim says a material input targeting an id
absent from the whole document makes `LoadMaterials` fail and return no
nodes.  On `docUnresolved` the load succeeds, returns the one-node set,
and the dangling input has been bound to a null material (the
resolution loop's `m_id2mat[i.id]` default-constructed a null entry). -/
theorem C3_load_succeeds_on_unresolved :
    resNodes (loadMaterials docUnresolved) = some [0] ∧
      resInput (loadMaterials docUnresolved) 0 "x" = some (SVal.mat none) :=
  ⟨rfl, rfl⟩

/-- C4, counterexample: the claim says no enqueued request is dropped,
including multiple requests targeting the same id.  In `docTwoFwd` both
`M0.x` and `M1.y` enqueue a request for id 99; `m_resolve_requests` is a
`std::set` whose `operator<` compares ids only, so the second emplace
fails.  After the load `M0.x` is resolved to `M2` but `M1.y` was never
set. -/
theorem C4_second_request_dropped :
    resInput (loadMaterials docTwoFwd) 0 "x" = some (SVal.mat (some 2)) ∧
      resInput (loadMaterials docTwoFwd) 1 "y" = none :=
  ⟨rfl, rfl⟩

/-- C5: the claim says a resource name is loaded through the image store
at most once and every input naming it resolves to the identical asset.
`LoadInput` probes `m_name2tex` under the file name but stores the
loaded texture under the input name (`m_name2tex[name] = texture` with
`name` the input attribute), so on `docSharedTex` the cache never hits:
`checker.png` is loaded twice and the two inputs hold distinct assets. -/
theorem C5_texture_cache_key_mismatch :
    resImgLoads (loadMaterials docSharedTex) = some ["checker.png", "checker.png"] ∧
      resInput (loadMaterials docSharedTex) 0 "albedo" = some (SVal.tex 0) ∧
      resInput (loadMaterials docSharedTex) 1 "albedo" = some (SVal.tex 1) :=
  ⟨rfl, rfl, rfl⟩

/-- C10, counterexample: the claim says a self-referencing input is
never resolved during pass 1 and is always enqueued.  In `docDupSelf` an
earlier record already declared id 7, so when record `Q` processes its
self-referencing input the id-table lookup hits: the input is resolved
immediately — to the earlier node `P`, not to `Q` — and no request is
enqueued at all. -/
theorem C10_selfref_resolved_in_pass1 :
    resInput (loadMaterials docDupSelf) 1 "s" = some (SVal.mat (some 0)) ∧
      (match pass1 docDupSelf with
       | .ok st => st.requests
       | .error _ => []) = [] :=
  ⟨rfl, rfl⟩

/-! ## Basic lemmas about the heap and the input maps -/

@[simp] theorem updAt_length (l : List α) (i : Nat) (f : α → α) :
    (updAt l i f).length = l.length := by
  induction l generalizing i with
  | nil => rfl
  | cons a as ih =>
    cases i with
    | zero => simp [updAt]
    | succ n => simp [updAt, ih]

theorem updAt_getElem (l : List α) (i j : Nat) (f : α → α) :
    (updAt l i f)[j]? = if i = j then (l[j]?).map f else l[j]? := by
  induction l generalizing i j with
  | nil => simp [updAt]
  | cons a as ih =>
    cases i with
    | zero =>
      cases j with
      | zero => simp [updAt]
      | succ m => simp [updAt]
    | succ n =>
      cases j with
      | zero => simp [updAt]
      | succ m => simpa [updAt] using ih n m

theorem alookup_setInput_self (n : String) (v : SVal) (l : List (String × SVal)) :
    alookup n (setInput n v l) = some v := by
  induction l with
  | nil => simp [setInput]
  | cons p rest ih =>
    obtain ⟨k, w⟩ := p
    by_cases h : k = n <;> simp [setInput, h, ih]

theorem alookup_setInput_ne (n n0 : String) (v : SVal) (l : List (String × SVal))
    (h : n0 ≠ n) : alookup n (setInput n0 v l) = alookup n l := by
  induction l with
  | nil => simp [setInput, h]
  | cons p rest ih =>
    obtain ⟨k, w⟩ := p
    by_cases hk : k = n0
    · subst hk
      simp [setInput, h, ih]
    · by_cases hn : k = n
      · subst hn
        simp [setInput, hk]
      · simp [setInput, hk, hn, ih]

@[simp] theorem setInputOf_store_length (h : Nat) (n : String) (v : SVal)
    (st : LoadState) : (setInputOf h n v st).store.length = st.store.length := by
  simp [setInputOf]

@[simp] theorem setInputOf_id2mat (h : Nat) (n : String) (v : SVal) (st : LoadState) :
    (setInputOf h n v st).id2mat = st.id2mat := rfl

@[simp] theorem setInputOf_requests (h : Nat) (n : String) (v : SVal) (st : LoadState) :
    (setInputOf h n v st).requests = st.requests := rfl

@[simp] theorem setInputOf_reqLog (h : Nat) (n : String) (v : SVal) (st : LoadState) :
    (setInputOf h n v st).reqLog = st.reqLog := rfl

theorem getInputOf_setInputOf_self (h : Nat) (n : String) (v : SVal) (st : LoadState)
    (hlt : h < st.store.length) : getInputOf (setInputOf h n v st) h n = some v := by
  have hg : ∃ o, st.store[h]? = some o := by
    rcases List.getElem?_eq_some_iff.mpr ⟨hlt, rfl⟩ with hsome
    exact ⟨st.store[h], hsome⟩
  obtain ⟨o, ho⟩ := hg
  simp [getInputOf, setInputOf, updAt_getElem, ho, alookup_setInput_self]

theorem getInputOf_setInputOf_ne (h h0 : Nat) (n n0 : String) (v : SVal)
    (st : LoadState) (hne : h0 ≠ h ∨ n0 ≠ n) :
    getInputOf (setInputOf h0 n0 v st) h n = getInputOf st h n := by
  rcases hne with hne | hne
  · simp [getInputOf, setInputOf, updAt_getElem, hne]
  · by_cases hh : h0 = h
    · subst hh
      cases ho : st.store[h0]? with
      | none => simp [getInputOf, setInputOf, updAt_getElem, ho]
      | some o => simp [getInputOf, setInputOf, updAt_getElem, ho,
          alookup_setInput_ne _ _ _ _ hne]
    · simp [getInputOf, setInputOf, updAt_getElem, hh]

/-! ## Lemmas about the resolve-request set -/

/-- Does the list contain a request with the given target id? -/
def hasId (l : List ResolveReq) (i : Nat) : Bool :=
  l.any (fun q => q.id == i)

/-- The first request with the given target id, in list order. -/
def firstReqWithId (i : Nat) : List ResolveReq → Option ResolveReq
  | [] => none
  | q :: qs => if q.id = i then some q else firstReqWithId i qs

/-- Fold a log of emplace attempts into the set, oldest first. -/
def foldEmplace (acc : List ResolveReq) (log : List ResolveReq) : List ResolveReq :=
  log.foldl (fun l q => emplaceReq q l) acc

@[simp] theorem hasId_nil (i : Nat) : hasId [] i = false := rfl

@[simp] theorem hasId_cons (q : ResolveReq) (l : List ResolveReq) (i : Nat) :
    hasId (q :: l) i = (q.id == i || hasId l i) := by
  simp [hasId]

theorem hasId_iff_mem (l : List ResolveReq) (i : Nat) :
    hasId l i = true ↔ ∃ q ∈ l, q.id = i := by
  simp [hasId]

theorem mem_emplaceReq (q r : ResolveReq) (l : List ResolveReq) :
    r ∈ emplaceReq q l → r = q ∨ r ∈ l := by
  induction l with
  | nil =>
    intro h
    rw [emplaceReq] at h
    exact Or.inl (List.mem_singleton.mp h)
  | cons x xs ih =>
    intro h
    rw [emplaceReq] at h
    by_cases h1 : q.id < x.id
    · rw [if_pos h1] at h
      exact List.mem_cons.mp h
    · rw [if_neg h1] at h
      by_cases h2 : x.id < q.id
      · rw [if_pos h2] at h
        rcases List.mem_cons.mp h with h | h
        · exact Or.inr (List.mem_cons.mpr (Or.inl h))
        · rcases ih h with h | h
          · exact Or.inl h
          · exact Or.inr (List.mem_cons.mpr (Or.inr h))
      · rw [if_neg h2] at h
        exact Or.inr h

theorem mem_emplaceReq_of_mem (q r : ResolveReq) (l : List ResolveReq) (h : r ∈ l) :
    r ∈ emplaceReq q l := by
  induction l with
  | nil => simp at h
  | cons x xs ih =>
    rw [emplaceReq]
    by_cases h1 : q.id < x.id
    · rw [if_pos h1]
      exact List.mem_cons.mpr (Or.inr h)
    · rw [if_neg h1]
      by_cases h2 : x.id < q.id
      · rw [if_pos h2]
        rcases List.mem_cons.mp h with h | h
        · exact List.mem_cons.mpr (Or.inl h)
        · exact List.mem_cons.mpr (Or.inr (ih h))
      · rw [if_neg h2]
        exact h

theorem self_mem_emplaceReq (q : ResolveReq) (l : List ResolveReq)
    (h : hasId l q.id = false) : q ∈ emplaceReq q l := by
  induction l with
  | nil =>
    rw [emplaceReq]
    exact List.mem_singleton.mpr rfl
  | cons x xs ih =>
    simp only [hasId_cons, Bool.or_eq_false_iff, beq_eq_false_iff_ne, ne_eq] at h
    obtain ⟨hx, hxs⟩ := h
    rw [emplaceReq]
    by_cases h1 : q.id < x.id
    · rw [if_pos h1]
      exact List.mem_cons_self q (x :: xs)
    · have h2 : x.id < q.id := by omega
      rw [if_neg h1, if_pos h2]
      exact List.mem_cons.mpr (Or.inr (ih hxs))

theorem emplaceReq_of_hasId (q : ResolveReq) (l : List ResolveReq)
    (hs : List.Pairwise (fun a b : ResolveReq => a.id < b.id) l)
    (h : hasId l q.id = true) : emplaceReq q l = l := by
  induction l with
  | nil => simp at h
  | cons x xs ih =>
    rcases List.pairwise_cons.mp hs with ⟨hx, hxs⟩
    simp only [hasId_cons, Bool.or_eq_true, beq_iff_eq] at h
    rw [emplaceReq]
    rcases h with h | h
    · have h1 : ¬q.id < x.id := by omega
      have h2 : ¬x.id < q.id := by omega
      rw [if_neg h1, if_neg h2]
    · rcases (hasId_iff_mem xs q.id).mp h with ⟨r, hr, hri⟩
      have hxr : x.id < r.id := hx r hr
      have h1 : ¬q.id < x.id := by omega
      have h2 : x.id < q.id := by omega
      rw [if_neg h1, if_pos h2, ih hxs h]

theorem hasId_emplaceReq (q : ResolveReq) (l : List ResolveReq) (i : Nat) :
    hasId (emplaceReq q l) i = (q.id == i || hasId l i) := by
  induction l with
  | nil => simp [emplaceReq, hasId]
  | cons x xs ih =>
    rw [emplaceReq]
    by_cases h1 : q.id < x.id
    · rw [if_pos h1]
      simp
    · rw [if_neg h1]
      by_cases h2 : x.id < q.id
      · rw [if_pos h2]
        simp [ih, Bool.or_comm, Bool.or_left_comm]
      · have hxq : x.id = q.id := by omega
        rw [if_neg h2]
        cases hq : (q.id == i) <;> simp [hasId_cons, hxq, hq]

theorem pairwise_emplaceReq (q : ResolveReq) (l : List ResolveReq)
    (hs : List.Pairwise (fun a b : ResolveReq => a.id < b.id) l) :
    List.Pairwise (fun a b : ResolveReq => a.id < b.id) (emplaceReq q l) := by
  induction l with
  | nil => simp [emplaceReq]
  | cons x xs ih =>
    rcases List.pairwise_cons.mp hs with ⟨hx, hxs⟩
    rw [emplaceReq]
    by_cases h1 : q.id < x.id
    · rw [if_pos h1]
      refine List.pairwise_cons.mpr ⟨?_, hs⟩
      intro r hr
      rcases List.mem_cons.mp hr with hr | hr
      · subst hr
        omega
      · have := hx r hr
        omega
    · rw [if_neg h1]
      by_cases h2 : x.id < q.id
      · rw [if_pos h2]
        refine List.pairwise_cons.mpr ⟨?_, ih hxs⟩
        intro r hr
        rcases mem_emplaceReq q r xs hr with hr | hr
        · subst hr
          omega
        · exact hx r hr
      · rw [if_neg h2]
        exact hs

@[simp] theorem foldEmplace_nil (acc : List ResolveReq) : foldEmplace acc [] = acc := rfl

@[simp] theorem foldEmplace_cons (acc : List ResolveReq) (q : ResolveReq)
    (log : List ResolveReq) :
    foldEmplace acc (q :: log) = foldEmplace (emplaceReq q acc) log := rfl

theorem foldEmplace_concat (acc : List ResolveReq) (log : List ResolveReq)
    (q : ResolveReq) :
    foldEmplace acc (log ++ [q]) = emplaceReq q (foldEmplace acc log) := by
  simp [foldEmplace]

theorem pairwise_foldEmplace (log acc : List ResolveReq)
    (hs : List.Pairwise (fun a b : ResolveReq => a.id < b.id) acc) :
    List.Pairwise (fun a b : ResolveReq => a.id < b.id) (foldEmplace acc log) := by
  induction log generalizing acc with
  | nil => simpa using hs
  | cons q qs ih => exact ih (emplaceReq q acc) (pairwise_emplaceReq q acc hs)

theorem hasId_foldEmplace (log acc : List ResolveReq) (i : Nat) :
    hasId (foldEmplace acc log) i = (hasId acc i || hasId log i) := by
  induction log generalizing acc with
  | nil => simp
  | cons q qs ih =>
    simp only [foldEmplace_cons, ih, hasId_emplaceReq, hasId_cons]
    cases hq : (q.id == i) <;> cases ha : hasId acc i <;> simp

/-- The central characterisation of the request set: an element survives
the fold of emplace attempts iff it was in the accumulator already, or
its id is new to the accumulator and it is the first attempt in the log
carrying that id. -/
theorem mem_foldEmplace (log : List ResolveReq) :
    ∀ (acc : List ResolveReq) (r : ResolveReq),
      List.Pairwise (fun a b : ResolveReq => a.id < b.id) acc →
      (r ∈ foldEmplace acc log ↔
        (r ∈ acc ∨ (hasId acc r.id = false ∧ firstReqWithId r.id log = some r))) := by
  induction log with
  | nil =>
    intro acc r _
    simp [firstReqWithId]
  | cons q qs ih =>
    intro acc r hs
    rw [foldEmplace_cons]
    rw [ih (emplaceReq q acc) r (pairwise_emplaceReq q acc hs)]
    by_cases hq : hasId acc q.id = true
    · rw [emplaceReq_of_hasId q acc hs hq]
      by_cases hri : q.id = r.id
      · have hra : hasId acc r.id = true := hri ▸ hq
        rw [firstReqWithId]
        simp [hri, hra]
      · rw [firstReqWithId, if_neg hri]
    · have hq0 : hasId acc q.id = false := by
        cases h : hasId acc q.id
        · rfl
        · exact absurd h hq
      have hmem : ∀ s, s ∈ emplaceReq q acc ↔ (s = q ∨ s ∈ acc) := by
        intro s
        constructor
        · exact mem_emplaceReq q s acc
        · intro h
          rcases h with h | h
          · subst h
            exact self_mem_emplaceReq s acc hq0
          · exact mem_emplaceReq_of_mem q s acc h
      by_cases hri : q.id = r.id
      · rw [firstReqWithId, if_pos hri]
        have hra : hasId acc r.id = false := hri ▸ hq0
        have hid : hasId (emplaceReq q acc) r.id = true := by
          rw [hasId_emplaceReq]
          simp [hri]
        rw [hmem r]
        simp [hid, hra]
        constructor
        · intro h
          rcases h with h | h
          · exact Or.inr h.symm
          · exact Or.inl h
        · intro h
          rcases h with h | h
          · exact Or.inr h
          · exact Or.inl h.symm
      · rw [firstReqWithId, if_neg hri]
        rw [hmem r]
        have hid : hasId (emplaceReq q acc) r.id = hasId acc r.id := by
          rw [hasId_emplaceReq]
          have : (q.id == r.id) = false := by
            simp [hri]
          simp [this]
        rw [hid]
        constructor
        · intro h
          rcases h with (h | h) | h
          · subst h
            exact absurd rfl hri
          · exact Or.inl h
          · exact Or.inr h
        · intro h
          rcases h with h | h
          · exact Or.inl (Or.inr h)
          · exact Or.inr h

theorem firstReqWithId_mem (i : Nat) (l : List ResolveReq) (r : ResolveReq)
    (h : firstReqWithId i l = some r) : r ∈ l ∧ r.id = i := by
  induction l with
  | nil => simp [firstReqWithId] at h
  | cons q qs ih =>
    rw [firstReqWithId] at h
    by_cases hq : q.id = i
    · rw [if_pos hq] at h
      have hqr : q = r := Option.some.inj h
      subst hqr
      exact ⟨List.mem_cons_self q qs, hq⟩
    · rw [if_neg hq] at h
      rcases ih h with ⟨hm, hi⟩
      exact ⟨List.mem_cons.mpr (Or.inr hm), hi⟩

theorem firstReqWithId_eq_of (i : Nat) (l : List ResolveReq) (a : ResolveReq)
    (hmem : a ∈ l) (hai : a.id = i) (huniq : ∀ x ∈ l, x.id = i → x = a) :
    firstReqWithId i l = some a := by
  induction l with
  | nil => simp at hmem
  | cons q qs ih =>
    rw [firstReqWithId]
    by_cases hq : q.id = i
    · rw [if_pos hq]
      rw [huniq q (List.mem_cons_self q qs) hq]
    · rw [if_neg hq]
      rcases List.mem_cons.mp hmem with h | h
      · subst h
        exact absurd hai hq
      · exact ih h (fun x hx => huniq x (List.mem_cons.mpr (Or.inr hx)))

/-! ## Pass-1 invariants -/

/-- The index of the last record in the list declaring the given id. -/
def lastDecl : List MatRecord → Nat → Option Nat
  | [], _ => none
  | r :: rs, i =>
    match lastDecl rs i with
    | some j => some (j + 1)
    | none => if r.id = i then some 0 else none

theorem foldEmplace_append (acc : List ResolveReq) (l1 l2 : List ResolveReq) :
    foldEmplace acc (l1 ++ l2) = foldEmplace (foldEmplace acc l1) l2 := by
  simp [foldEmplace]

/-- Effect of one `LoadInput` call on every piece of loader state the
claims mention. -/
theorem loadInput_step (h : Nat) (e : InputElem) (st st' : LoadState)
    (hok : loadInput h e st = .ok st') :
    st'.store.length = st.store.length ∧
      st'.id2mat = st.id2mat ∧
      ∃ tail, st'.reqLog = st.reqLog ++ tail ∧
        (∀ q ∈ tail, e.ty = "material" ∧ alookup (atoiN e.value) st.id2mat = none ∧
          q = ResolveReq.mk h e.name (atoiN e.value)) ∧
        st'.requests = foldEmplace st.requests tail := by
  unfold loadInput at hok
  by_cases h1 : e.ty = "float4"
  · rw [if_pos h1] at hok
    injection hok with hok
    subst hok
    exact ⟨by simp, rfl, [], by simp, by simp, rfl⟩
  · rw [if_neg h1] at hok
    by_cases h2 : e.ty = "texture"
    · rw [if_pos h2] at hok
      cases hl : alookup e.value st.name2tex with
      | some t =>
        rw [hl] at hok
        injection hok with hok
        subst hok
        exact ⟨by simp, rfl, [], by simp, by simp, rfl⟩
      | none =>
        rw [hl] at hok
        injection hok with hok
        subst hok
        exact ⟨by simp [setInputOf], rfl, [], by simp, by simp, rfl⟩
    · rw [if_neg h2] at hok
      by_cases h3 : e.ty = "material"
      · rw [if_pos h3] at hok
        cases hl : alookup (atoiN e.value) st.id2mat with
        | some mh =>
          rw [hl] at hok
          injection hok with hok
          subst hok
          exact ⟨by simp, rfl, [], by simp, by simp, rfl⟩
        | none =>
          rw [hl] at hok
          injection hok with hok
          subst hok
          refine ⟨rfl, rfl, [ResolveReq.mk h e.name (atoiN e.value)], rfl, ?_, rfl⟩
          intro q hq
          rw [List.mem_singleton.mp hq]
          exact ⟨h3, rfl, rfl⟩
      · rw [if_neg h3] at hok
        cases hok

/-- Effect of the whole input loop of one record. -/
theorem loadInputs_step (h : Nat) (es : List InputElem) :
    ∀ (st st' : LoadState), loadInputs h es st = .ok st' →
      st'.store.length = st.store.length ∧
        st'.id2mat = st.id2mat ∧
        ∃ tail, st'.reqLog = st.reqLog ++ tail ∧
          (∀ q ∈ tail, ∃ e ∈ es, e.ty = "material" ∧
            q = ResolveReq.mk h e.name (atoiN e.value)) ∧
          st'.requests = foldEmplace st.requests tail := by
  induction es with
  | nil =>
    intro st st' hok
    injection hok with hok
    subst hok
    exact ⟨rfl, rfl, [], by simp, by simp, rfl⟩
  | cons e es ih =>
    intro st st' hok
    cases hm : loadInput h e st with
    | error err =>
      rw [loadInputs, hm] at hok
      cases hok
    | ok st1 =>
      rw [loadInputs, hm] at hok
      obtain ⟨hlen1, hid1, t1, hlog1, hchar1, hreq1⟩ := loadInput_step h e st st1 hm
      obtain ⟨hlen2, hid2, t2, hlog2, hchar2, hreq2⟩ := ih st1 st' hok
      refine ⟨hlen2.trans hlen1, hid2.trans hid1, t1 ++ t2, ?_, ?_, ?_⟩
      · rw [hlog2, hlog1, List.append_assoc]
      · intro q hq
        rcases List.mem_append.mp hq with hq | hq
        · obtain ⟨hty, _, hval⟩ := hchar1 q hq
          exact ⟨e, List.mem_cons_self e es, hty, hval⟩
        · obtain ⟨e2, he2, hty, hval⟩ := hchar2 q hq
          exact ⟨e2, List.mem_cons.mpr (Or.inr he2), hty, hval⟩
      · rw [hreq2, hreq1, foldEmplace_append]

/-- Effect of `LoadMaterial` for one record: one fresh node, the id
table overwritten at the declared id, and the record's unresolved
material inputs appended to the enqueue trace. -/
theorem loadMaterialRec_step (r : MatRecord) (st st' : LoadState)
    (hok : loadMaterialRec r st = .ok st') :
    st'.store.length = st.store.length + 1 ∧
      st'.id2mat = mapInsert r.id (some st.store.length) st.id2mat ∧
      ∃ tail, st'.reqLog = st.reqLog ++ tail ∧
        (∀ q ∈ tail, ∃ e ∈ r.inputs, e.ty = "material" ∧
          q = ResolveReq.mk st.store.length e.name (atoiN e.value)) ∧
        st'.requests = foldEmplace st.requests tail := by
  unfold loadMaterialRec at hok
  cases hk : mkKind r with
  | error err =>
    simp only [hk] at hok
    cases hok
  | ok k =>
    simp only [hk] at hok
    cases hi : loadInputs st.store.length r.inputs
        { st with store := st.store ++
            [{ name := r.name, thin := r.thin == "true", kind := k, inputs := [] }] } with
    | error err =>
      simp only [hi] at hok
      cases hok
    | ok st2 =>
      simp only [hi, Except.ok.injEq] at hok
      subst hok
      obtain ⟨hlen, hid, tail, hlog, hchar, hreq⟩ :=
        loadInputs_step st.store.length r.inputs _ st2 hi
      have hlen2 : st2.store.length = st.store.length + 1 := by simpa using hlen
      have hid2 : st2.id2mat = st.id2mat := by simpa using hid
      refine ⟨?_, ?_, tail, hlog, hchar, hreq⟩
      · simpa using hlen2
      · simp [hid2]

/-- Aggregate effect of pass 1 over a record list. -/
theorem pass1Aux_step (rs : List MatRecord) :
    ∀ (st st' : LoadState), pass1Aux rs st = .ok st' →
      st'.store.length = st.store.length + rs.length ∧
        (∀ i, alookup i st'.id2mat =
          match lastDecl rs i with
          | some j => some (some (st.store.length + j))
          | none => alookup i st.id2mat) ∧
        ∃ tail, st'.reqLog = st.reqLog ++ tail ∧
          (∀ q ∈ tail, ∃ jr r e, rs[jr]? = some r ∧ e ∈ r.inputs ∧
            e.ty = "material" ∧
            q = ResolveReq.mk (st.store.length + jr) e.name (atoiN e.value)) ∧
          st'.requests = foldEmplace st.requests tail := by
  induction rs with
  | nil =>
    intro st st' hok
    injection hok with hok
    subst hok
    refine ⟨rfl, ?_, [], by simp, by simp, rfl⟩
    intro i
    simp [lastDecl]
  | cons r rest ih =>
    intro st st' hok
    cases hm : loadMaterialRec r st with
    | error err =>
      rw [pass1Aux, hm] at hok
      cases hok
    | ok st1 =>
      rw [pass1Aux, hm] at hok
      obtain ⟨hlen1, hid1, t1, hlog1, hchar1, hreq1⟩ := loadMaterialRec_step r st st1 hm
      obtain ⟨hlen2, hid2, t2, hlog2, hchar2, hreq2⟩ := ih st1 st' hok
      refine ⟨?_, ?_, t1 ++ t2, ?_, ?_, ?_⟩
      · rw [hlen2, hlen1]
        simp [List.length_cons]
        omega
      · intro i
        rw [hid2 i]
        cases hld : lastDecl rest i with
        | some j =>
          simp only [lastDecl, hld]
          rw [hlen1]
          have : st.store.length + 1 + j = st.store.length + (j + 1) := by omega
          rw [this]
        | none =>
          simp only [lastDecl, hld]
          rw [hid1, alookup_mapInsert]
          by_cases hr : r.id = i
          · simp [hr]
          · simp [hr]
      · rw [hlog2, hlog1, List.append_assoc]
      · intro q hq
        rcases List.mem_append.mp hq with hq | hq
        · obtain ⟨e, he, hty, hval⟩ := hchar1 q hq
          exact ⟨0, r, e, by simp, he, hty, by simpa using hval⟩
        · obtain ⟨jr, r2, e, hjr, he, hty, hval⟩ := hchar2 q hq
          refine ⟨jr + 1, r2, e, by simpa using hjr, he, hty, ?_⟩
          rw [hval, hlen1]
          have : st.store.length + 1 + jr = st.store.length + (jr + 1) := by omega
          rw [this]
      · rw [hreq2, hreq1, foldEmplace_append]

/-- Summary of pass 1 run from the freshly cleared state. -/
theorem pass1_facts (doc : List MatRecord) (st : LoadState) (hok : pass1 doc = .ok st) :
    st.store.length = doc.length ∧
      (∀ i, alookup i st.id2mat = (lastDecl doc i).map (fun j => some j)) ∧
      (∀ q ∈ st.reqLog, ∃ jr r e, doc[jr]? = some r ∧ e ∈ r.inputs ∧
        e.ty = "material" ∧ q = ResolveReq.mk jr e.name (atoiN e.value)) ∧
      st.requests = foldEmplace [] st.reqLog := by
  obtain ⟨hlen, hid, tail, hlog, hchar, hreq⟩ := pass1Aux_step doc initState st hok
  have hlog0 : st.reqLog = tail := by simpa [initState] using hlog
  refine ⟨by simpa [initState] using hlen, ?_, ?_, ?_⟩
  · intro i
    rw [hid i]
    cases hld : lastDecl doc i with
    | some j => simp [initState]
    | none => simp [initState]
  · intro q hq
    rw [hlog0] at hq
    obtain ⟨jr, r, e, hjr, he, hty, hval⟩ := hchar q hq
    exact ⟨jr, r, e, hjr, he, hty, by simpa [initState] using hval⟩
  · rw [hlog0, hreq]
    simp [initState]

/-! ## The resolution loop -/

@[simp] theorem resolveStep_store (s : LoadState) (q : ResolveReq) :
    (resolveStep s q).store = (setInputOf q.mat q.input
      (SVal.mat (resolveLookup s q.id).1) (resolveLookup s q.id).2).store := rfl

theorem resolveLookup_store (s : LoadState) (i : Nat) :
    (resolveLookup s i).2.store = s.store := by
  unfold resolveLookup
  cases h : alookup i s.id2mat <;> simp

theorem resolveStep_store_length (s : LoadState) (q : ResolveReq) :
    (resolveStep s q).store.length = s.store.length := by
  unfold resolveStep
  simp [setInputOf, resolveLookup_store]

theorem resolveStep_id2mat_some (s : LoadState) (q : ResolveReq) (i : Nat)
    (v : Option Nat) (h : alookup i s.id2mat = some v) :
    alookup i (resolveStep s q).id2mat = some v := by
  unfold resolveStep resolveLookup
  cases hl : alookup q.id s.id2mat with
  | some w => simpa using h
  | none =>
    have hne : q.id ≠ i := by
      intro heq
      rw [heq, h] at hl
      cases hl
    simp [alookup_mapInsert, hne, h]

theorem getInputOf_store_eq (s1 s2 : LoadState) (h : s1.store = s2.store)
    (hm : Nat) (n : String) : getInputOf s1 hm n = getInputOf s2 hm n := by
  simp [getInputOf, h]

theorem getInputOf_resolveStep_ne (s : LoadState) (q2 : ResolveReq) (hm : Nat)
    (n : String) (hne : q2.mat ≠ hm ∨ q2.input ≠ n) :
    getInputOf (resolveStep s q2) hm n = getInputOf s hm n := by
  unfold resolveStep
  rw [getInputOf_setInputOf_ne _ _ _ _ _ _ hne]
  exact getInputOf_store_eq _ _ (resolveLookup_store s q2.id) hm n

theorem getInputOf_some_lt (s : LoadState) (hm : Nat) (n : String) (v : SVal)
    (h : getInputOf s hm n = some v) : hm < s.store.length := by
  unfold getInputOf at h
  cases ho : s.store[hm]? with
  | none => rw [ho] at h; cases h
  | some o => exact (List.getElem?_eq_some_iff.mp ho).1

theorem resolveStep_self (s : LoadState) (q : ResolveReq) (v : Option Nat)
    (htab : alookup q.id s.id2mat = some v) (hlt : q.mat < s.store.length) :
    getInputOf (resolveStep s q) q.mat q.input = some (SVal.mat v) := by
  unfold resolveStep resolveLookup
  rw [htab]
  exact getInputOf_setInputOf_self q.mat q.input (SVal.mat v) s hlt

theorem resolveFold_keeps (q : ResolveReq) (v : Option Nat) :
    ∀ (l : List ResolveReq) (s : LoadState),
      getInputOf s q.mat q.input = some (SVal.mat v) →
      alookup q.id s.id2mat = some v →
      (∀ q2 ∈ l, q2.mat = q.mat → q2.input = q.input → q2 = q) →
      getInputOf (List.foldl resolveStep s l) q.mat q.input = some (SVal.mat v) := by
  intro l
  induction l with
  | nil => intro s hg _ _; simpa using hg
  | cons q2 rest ih =>
    intro s hg htab huniq
    rw [List.foldl_cons]
    by_cases heq : q2 = q
    · subst heq
      have hlt : q2.mat < s.store.length := getInputOf_some_lt s q2.mat q2.input _ hg
      exact ih (resolveStep s q2) (resolveStep_self s q2 v htab hlt)
        (resolveStep_id2mat_some s q2 q2.id v htab)
        (fun q3 h3 => huniq q3 (List.mem_cons.mpr (Or.inr h3)))
    · have hne : q2.mat ≠ q.mat ∨ q2.input ≠ q.input := by
        by_contra hc
        push_neg at hc
        exact heq (huniq q2 (List.mem_cons_self q2 rest) hc.1 hc.2)
      exact ih (resolveStep s q2)
        ((getInputOf_resolveStep_ne s q2 q.mat q.input hne).trans hg)
        (resolveStep_id2mat_some s q2 q.id v htab)
        (fun q3 h3 => huniq q3 (List.mem_cons.mpr (Or.inr h3)))

theorem resolveFold_sets (q : ResolveReq) (v : Option Nat) :
    ∀ (l : List ResolveReq) (s : LoadState),
      alookup q.id s.id2mat = some v →
      q.mat < s.store.length →
      q ∈ l →
      (∀ q2 ∈ l, q2.mat = q.mat → q2.input = q.input → q2 = q) →
      getInputOf (List.foldl resolveStep s l) q.mat q.input = some (SVal.mat v) := by
  intro l
  induction l with
  | nil => intro s _ _ hq _; simp at hq
  | cons q2 rest ih =>
    intro s htab hlt hq huniq
    rw [List.foldl_cons]
    by_cases heq : q2 = q
    · subst heq
      exact resolveFold_keeps q2 v rest (resolveStep s q2)
        (resolveStep_self s q2 v htab hlt)
        (resolveStep_id2mat_some s q2 q2.id v htab)
        (fun q3 h3 => huniq q3 (List.mem_cons.mpr (Or.inr h3)))
    · have hq' : q ∈ rest := by
        rcases List.mem_cons.mp hq with h | h
        · exact absurd h.symm heq
        · exact h
      exact ih (resolveStep s q2)
        (resolveStep_id2mat_some s q2 q.id v htab)
        (by rw [resolveStep_store_length]; exact hlt)
        hq'
        (fun q3 h3 => huniq q3 (List.mem_cons.mpr (Or.inr h3)))

/-- The binding produced by pass 2 for a surviving request whose slot no
other surviving request touches. -/
theorem resolveAll_binding (st : LoadState) (q : ResolveReq) (v : Option Nat)
    (htab : alookup q.id st.id2mat = some v)
    (hlt : q.mat < st.store.length)
    (hmem : q ∈ st.requests)
    (huniq : ∀ q2 ∈ st.requests, q2.mat = q.mat → q2.input = q.input → q2 = q) :
    getInputOf (resolveAll st) q.mat q.input = some (SVal.mat v) :=
  resolveFold_sets q v st.requests st htab hlt hmem huniq

/-! ## Claim theorems about the reader -/

/-- The pass-1 state of `docUnresolved`, for the C3 witness. -/
def stUnresolved : LoadState :=
  match pass1 docUnresolved with
  | .ok st => st
  | .error _ => initState

/-- The pass-1 state of `docTwoFwd`, for the C4 witness. -/
def stTwoFwd : LoadState :=
  match pass1 docTwoFwd with
  | .ok st => st
  | .error _ => initState

/-- The pass-1 state of `docDupIds`, for the C9 witness. -/
def stDupIds : LoadState :=
  match pass1 docDupIds with
  | .ok st => st
  | .error _ => initState

/-- The pass-1 state of `docSelf`, for the C10 witness. -/
def stSelf : LoadState :=
  match pass1 docSelf with
  | .ok st => st
  | .error _ => initState

/-- C3 (amended): `LoadMaterials` never fails because of an unresolved
reference.  Whenever pass 1 succeeds the load returns the full node set,
one node per record; a request whose target id is absent is silently
bound to a null material by `m_id2mat[i.id]` (shown concretely by
`C3_load_succeeds_on_unresolved`). -/
theorem C3_resolution_never_fails (doc : List MatRecord) (st : LoadState)
    (h : pass1 doc = .ok st) :
    loadMaterials doc = .ok (resolveAll st, List.range doc.length) := by
  have hlen := (pass1_facts doc st h).1
  simp only [loadMaterials, h, hlen]

/-- C3 witness: the amended statement evaluated on `docUnresolved`. -/
theorem C3_resolution_never_fails_w :
    loadMaterials docUnresolved = .ok (resolveAll stUnresolved, List.range 1) :=
  C3_resolution_never_fails docUnresolved stUnresolved rfl

/-- C4 (amended): after pass 1 the surviving resolution requests are
strictly sorted by target id — pass 2 drains them in increasing-id
order, not enqueue order — and for each target id exactly the
first-enqueued request survives: every later emplace with an equal id
was dropped, though each enqueued id is represented by one survivor. -/
theorem C4_requests_sorted_first_wins (doc : List MatRecord) (st : LoadState)
    (h : pass1 doc = .ok st) :
    List.Pairwise (fun a b : ResolveReq => a.id < b.id) st.requests ∧
      (∀ q ∈ st.requests, firstReqWithId q.id st.reqLog = some q) ∧
      (∀ q ∈ st.reqLog, ∃ q2 ∈ st.requests, q2.id = q.id) := by
  obtain ⟨-, -, -, hreq⟩ := pass1_facts doc st h
  refine ⟨?_, ?_, ?_⟩
  · rw [hreq]
    exact pairwise_foldEmplace _ _ (by simp)
  · intro q hq
    rw [hreq] at hq
    rcases (mem_foldEmplace st.reqLog [] q (by simp)).mp hq with h0 | ⟨-, hf⟩
    · simp at h0
    · exact hf
  · intro q hq
    have hid : hasId st.requests q.id = true := by
      rw [hreq, hasId_foldEmplace]
      have : hasId st.reqLog q.id = true := (hasId_iff_mem _ _).mpr ⟨q, hq, rfl⟩
      simp [this]
    rcases (hasId_iff_mem _ _).mp hid with ⟨q2, hq2, hq2i⟩
    exact ⟨q2, hq2, hq2i⟩

/-- C4 witness: the amended statement evaluated on `docTwoFwd`. -/
theorem C4_requests_sorted_first_wins_w :
    List.Pairwise (fun a b : ResolveReq => a.id < b.id) stTwoFwd.requests ∧
      (∀ q ∈ stTwoFwd.requests, firstReqWithId q.id stTwoFwd.reqLog = some q) ∧
      (∀ q ∈ stTwoFwd.reqLog, ∃ q2 ∈ stTwoFwd.requests, q2.id = q.id) :=
  C4_requests_sorted_first_wins docTwoFwd stTwoFwd rfl

/-- C9: when several records declare the same id, `m_id2mat[id] =
material` makes the last-declared node overwrite the earlier entry, so
the completed table maps the id to the node of the last record declaring
it, and a pass-2 resolution of a surviving request for that id (whose
slot no other surviving request overwrites) binds that later node. -/
theorem C9_later_declaration_wins (doc : List MatRecord) (st : LoadState) (i j : Nat)
    (h : pass1 doc = .ok st) (hld : lastDecl doc i = some j) :
    alookup i st.id2mat = some (some j) ∧
      ∀ q ∈ st.requests, q.id = i →
        (∀ q2 ∈ st.requests, q2.mat = q.mat → q2.input = q.input → q2 = q) →
        getInputOf (resolveAll st) q.mat q.input = some (SVal.mat (some j)) := by
  obtain ⟨hlen, hid, hchar, hreq⟩ := pass1_facts doc st h
  have htab : alookup i st.id2mat = some (some j) := by
    rw [hid i, hld]
    rfl
  refine ⟨htab, ?_⟩
  intro q hq hqi huniq
  have hqlog : q ∈ st.reqLog := by
    rw [hreq] at hq
    rcases (mem_foldEmplace st.reqLog [] q (by simp)).mp hq with h0 | ⟨-, hf⟩
    · simp at h0
    · exact (firstReqWithId_mem _ _ _ hf).1
  obtain ⟨jr, r, e, hjr, -, -, hqval⟩ := hchar q hqlog
  have hjrlt : jr < doc.length := (List.getElem?_eq_some_iff.mp hjr).1
  have hqmat : q.mat < st.store.length := by
    rw [hqval]
    simpa [hlen] using hjrlt
  subst hqi
  exact resolveAll_binding st q (some j) htab hqmat hq huniq

/-- C9 witness: the statement evaluated on `docDupIds` (two records
declare id 5; the table holds the second node, and record C's input `z`
is resolved to it). -/
theorem C9_later_declaration_wins_w :
    alookup 5 stDupIds.id2mat = some (some 1) ∧
      ∀ q ∈ stDupIds.requests, q.id = 5 →
        (∀ q2 ∈ stDupIds.requests, q2.mat = q.mat → q2.input = q.input → q2 = q) →
        getInputOf (resolveAll stDupIds) q.mat q.input = some (SVal.mat (some 1)) :=
  C9_later_declaration_wins docDupIds stDupIds 5 1 rfl rfl

/-! ## Support for the self-reference claim -/

theorem pass1Aux_append (l1 l2 : List MatRecord) :
    ∀ (st st' : LoadState), pass1Aux (l1 ++ l2) st = .ok st' →
      ∃ stm, pass1Aux l1 st = .ok stm ∧ pass1Aux l2 stm = .ok st' := by
  induction l1 with
  | nil =>
    intro st st' h
    exact ⟨st, rfl, h⟩
  | cons r rs ih =>
    intro st st' h
    rw [List.cons_append] at h
    cases hm : loadMaterialRec r st with
    | error err =>
      rw [pass1Aux, hm] at h
      cases h
    | ok st1 =>
      rw [pass1Aux, hm] at h
      obtain ⟨stm, h1, h2⟩ := ih st1 st' h
      refine ⟨stm, ?_, h2⟩
      rw [pass1Aux, hm]
      exact h1

theorem loadInputs_append (h : Nat) (l1 l2 : List InputElem) :
    ∀ (st st' : LoadState), loadInputs h (l1 ++ l2) st = .ok st' →
      ∃ stm, loadInputs h l1 st = .ok stm ∧ loadInputs h l2 stm = .ok st' := by
  induction l1 with
  | nil =>
    intro st st' hok
    exact ⟨st, rfl, hok⟩
  | cons e es ih =>
    intro st st' hok
    rw [List.cons_append] at hok
    cases hm : loadInput h e st with
    | error err =>
      rw [loadInputs, hm] at hok
      cases hok
    | ok st1 =>
      rw [loadInputs, hm] at hok
      obtain ⟨stm, h1, h2⟩ := ih st1 st' hok
      refine ⟨stm, ?_, h2⟩
      rw [loadInputs, hm]
      exact h1

theorem lastDecl_none (i : Nat) : ∀ (l : List MatRecord),
    (∀ r ∈ l, r.id ≠ i) → lastDecl l i = none := by
  intro l
  induction l with
  | nil => intro _; rfl
  | cons r rs ih =>
    intro h
    rw [lastDecl, ih (fun r2 h2 => h r2 (List.mem_cons.mpr (Or.inr h2)))]
    simp [h r (List.mem_cons_self r rs)]

theorem lastDecl_eq_of (i : Nat) : ∀ (l : List MatRecord) (k : Nat) (r : MatRecord),
    l[k]? = some r → r.id = i →
    (∀ j r2, l[j]? = some r2 → j ≠ k → r2.id ≠ i) →
    lastDecl l i = some k := by
  intro l
  induction l with
  | nil =>
    intro k r hk
    simp at hk
  | cons a as ih =>
    intro k r hk hi huniq
    cases k with
    | zero =>
      have ha : a = r := by simpa using hk
      have hnone : lastDecl as i = none := by
        apply lastDecl_none
        intro r2 h2
        rcases List.mem_iff_getElem?.mp h2 with ⟨j, hj⟩
        exact huniq (j + 1) r2 (by simpa using hj) (by omega)
      rw [lastDecl, hnone]
      simp [ha, hi]
    | succ k0 =>
      have hk0 : as[k0]? = some r := by simpa using hk
      have hrec : lastDecl as i = some k0 := by
        apply ih k0 r hk0 hi
        intro j r2 hj hne
        exact huniq (j + 1) r2 (by simpa using hj) (by omega)
      rw [lastDecl, hrec]

/-- During pass 1, a record whose id no other record declares and that
contains a material input targeting its own declared id does enqueue a
resolution request for it: the id-table lookup cannot hit because the
record registers itself only after its inputs are processed. -/
theorem pass1_selfref_enqueued (doc : List MatRecord) (st : LoadState) (k : Nat)
    (r : MatRecord) (e : InputElem)
    (h : pass1 doc = .ok st) (hk : doc[k]? = some r) (he : e ∈ r.inputs)
    (hty : e.ty = "material") (hself : atoiN e.value = r.id)
    (huid : ∀ j r2, doc[j]? = some r2 → j ≠ k → r2.id ≠ r.id) :
    ResolveReq.mk k e.name r.id ∈ st.reqLog := by
  obtain ⟨hklt, hkel⟩ := List.getElem?_eq_some_iff.mp hk
  -- split the document at record k
  have hsplit : doc = doc.take k ++ r :: doc.drop (k + 1) := by
    conv_lhs => rw [← List.take_append_drop k doc]
    rw [List.drop_eq_getElem_cons hklt, hkel]
  rw [pass1, hsplit] at h
  obtain ⟨stPre, hPre, hRest⟩ := pass1Aux_append _ _ _ _ h
  -- facts about the prefix state
  obtain ⟨hlenP, hidP, tailP, hlogP, -, -⟩ := pass1Aux_step _ _ _ hPre
  have htakelen : (doc.take k).length = k := by
    rw [List.length_take]
    omega
  have hkstore : stPre.store.length = k := by
    rw [hlenP, htakelen]
    simp [initState]
  have hidPre : alookup r.id stPre.id2mat = none := by
    rw [hidP r.id]
    have hnone : lastDecl (doc.take k) r.id = none := by
      apply lastDecl_none
      intro r2 h2
      rcases List.mem_iff_getElem?.mp h2 with ⟨j, hj⟩
      have hjlt : j < k := by
        rcases List.getElem?_eq_some_iff.mp hj with ⟨hlt, -⟩
        rw [htakelen] at hlt
        exact hlt
      rw [List.getElem?_take_of_lt hjlt] at hj
      exact huid j r2 hj (by omega)
    rw [hnone]
    simp [initState]
  -- one step of pass 1 at record k
  rw [pass1Aux] at hRest
  cases hm : loadMaterialRec r stPre with
  | error err =>
    rw [hm] at hRest
    cases hRest
  | ok stK =>
    rw [hm] at hRest
    -- decompose the record-k step
    unfold loadMaterialRec at hm
    cases hkk : mkKind r with
    | error err =>
      simp only [hkk] at hm
      cases hm
    | ok kk =>
      simp only [hkk] at hm
      cases hins : loadInputs stPre.store.length r.inputs
          { stPre with store := stPre.store ++
              [{ name := r.name, thin := r.thin == "true", kind := kk, inputs := [] }] } with
      | error err =>
        simp only [hins] at hm
        cases hm
      | ok st2 =>
        simp only [hins, Except.ok.injEq] at hm
        -- split the inputs of record k at element e
        obtain ⟨l1, l2, hinputs⟩ := List.append_of_mem he
        rw [hinputs] at hins
        obtain ⟨stm, hm1, hm2⟩ := loadInputs_append _ _ _ _ _ hins
        obtain ⟨-, hidm, -, -, -⟩ := loadInputs_step _ _ _ _ hm1
        have hid2 : alookup (atoiN e.value) stm.id2mat = none := by
          rw [hidm, hself]
          simpa using hidPre
        -- the enqueueing step itself
        cases hstep : loadInput stPre.store.length e stm with
        | error err =>
          rw [loadInputs, hstep] at hm2
          cases hm2
        | ok stE =>
          rw [loadInputs, hstep] at hm2
          have hstE : stE.reqLog = stm.reqLog ++
              [ResolveReq.mk stPre.store.length e.name (atoiN e.value)] := by
            unfold loadInput at hstep
            rw [hty] at hstep
            simp only [reduceIte, hid2] at hstep
            have := Except.ok.inj hstep
            rw [← this]
          have hqE : ResolveReq.mk k e.name r.id ∈ stE.reqLog := by
            rw [hstE, hkstore, hself]
            exact List.mem_append.mpr (Or.inr (List.mem_singleton.mpr rfl))
          -- the request stays in the log for the rest of the load
          obtain ⟨-, -, tail2, hlog2, -, -⟩ := loadInputs_step _ _ _ _ hm2
          have hqst2 : ResolveReq.mk k e.name r.id ∈ st2.reqLog := by
            rw [hlog2]
            exact List.mem_append.mpr (Or.inl hqE)
          have hqstK : ResolveReq.mk k e.name r.id ∈ stK.reqLog := by
            rw [← hm]
            exact hqst2
          obtain ⟨-, -, tail3, hlog3, -, -⟩ := pass1Aux_step _ _ _ hRest
          rw [hlog3]
          exact List.mem_append.mpr (Or.inl hqstK)

/-- C10 (amended): a material input targeting the record's own declared
id is not resolved during pass 1 and is enqueued — provided no other
record declares that id (otherwise the earlier entry makes the pass-1
lookup hit, `C10_selfref_resolved_in_pass1`), no other material input in
the document targets that id (otherwise the earlier request makes the
`std::set` emplace fail), and the record has no other material-typed
input (otherwise a second surviving request could overwrite the slot).
Under those provisos pass 2 resolves the request to the node itself. -/
theorem C10_selfref_resolved_in_pass2 (doc : List MatRecord) (st : LoadState)
    (k : Nat) (r : MatRecord) (e : InputElem)
    (h : pass1 doc = .ok st) (hk : doc[k]? = some r) (he : e ∈ r.inputs)
    (hty : e.ty = "material") (hself : atoiN e.value = r.id)
    (huid : ∀ j r2, doc[j]? = some r2 → j ≠ k → r2.id ≠ r.id)
    (hafor : ∀ j r2 e2, doc[j]? = some r2 → e2 ∈ r2.inputs → e2.ty = "material" →
      atoiN e2.value = r.id → j = k ∧ e2 = e)
    (honly : ∀ e2 ∈ r.inputs, e2.ty = "material" → e2 = e) :
    ResolveReq.mk k e.name r.id ∈ st.requests ∧
      getInputOf (resolveAll st) k e.name = some (SVal.mat (some k)) := by
  obtain ⟨hklt, -⟩ := List.getElem?_eq_some_iff.mp hk
  have hlog : ResolveReq.mk k e.name r.id ∈ st.reqLog :=
    pass1_selfref_enqueued doc st k r e h hk he hty hself huid
  obtain ⟨hlen, hid, hchar, hreq⟩ := pass1_facts doc st h
  -- every log entry carrying this target id is the self request
  have hall : ∀ q ∈ st.reqLog, q.id = r.id → q = ResolveReq.mk k e.name r.id := by
    intro q hq hqi
    obtain ⟨jr, r2, e2, hjr, he2, hty2, hqval⟩ := hchar q hq
    have hq2 : atoiN e2.value = r.id := by
      rw [hqval] at hqi
      exact hqi
    obtain ⟨hjk, he2e⟩ := hafor jr r2 e2 hjr he2 hty2 hq2
    rw [hqval, hjk, he2e, hself]
  have hfirst : firstReqWithId r.id st.reqLog = some (ResolveReq.mk k e.name r.id) :=
    firstReqWithId_eq_of r.id st.reqLog _ hlog rfl hall
  have hmemreq : ResolveReq.mk k e.name r.id ∈ st.requests := by
    rw [hreq]
    exact (mem_foldEmplace st.reqLog [] _ (by simp)).mpr (Or.inr ⟨rfl, hfirst⟩)
  have hld : lastDecl doc r.id = some k := lastDecl_eq_of r.id doc k r hk rfl huid
  have htab : alookup r.id st.id2mat = some (some k) := by
    rw [hid r.id, hld]
    rfl
  have hlt : k < st.store.length := by
    rw [hlen]
    exact hklt
  refine ⟨hmemreq, ?_⟩
  have huniq : ∀ q2 ∈ st.requests, q2.mat = k → q2.input = e.name →
      q2 = ResolveReq.mk k e.name r.id := by
    intro q2 hq2 hmat _
    have hq2log : q2 ∈ st.reqLog := by
      rw [hreq] at hq2
      rcases (mem_foldEmplace st.reqLog [] q2 (by simp)).mp hq2 with h0 | ⟨-, hf⟩
      · simp at h0
      · exact (firstReqWithId_mem _ _ _ hf).1
    obtain ⟨jr, r2, e2, hjr, he2, hty2, hqval⟩ := hchar q2 hq2log
    have hjk : jr = k := by
      rw [hqval] at hmat
      exact hmat
    rw [hjk, hk] at hjr
    have hr2 : r2 = r := (Option.some.inj hjr).symm
    rw [hr2] at he2
    have he2e : e2 = e := honly e2 he2 hty2
    rw [hqval, hjk, he2e, hself]
  exact resolveAll_binding st (ResolveReq.mk k e.name r.id) (some k) htab hlt hmemreq huniq

/-- C10 witness: the amended statement on the one-record document
`docSelf`, whose single input references its own id 7: the request
survives and pass 2 binds the node to itself. -/
theorem C10_selfref_resolved_in_pass2_w :
    ResolveReq.mk 0 "s" 7 ∈ stSelf.requests ∧
      getInputOf (resolveAll stSelf) 0 "s" = some (SVal.mat (some 0)) :=
  C10_selfref_resolved_in_pass2 docSelf stSelf 0
    ⟨"S", "simple", "", 7, "lambert", 0, [⟨"s", "material", "7"⟩]⟩
    ⟨"s", "material", "7"⟩
    rfl rfl (by simp [docSelf]) rfl rfl
    (by
      intro j r2 hj hne
      cases j with
      | zero => exact absurd rfl hne
      | succ j0 => simp [docSelf] at hj)
    (by
      intro j r2 e2 hj he2 hty2 hid2
      cases j with
      | zero =>
        refine ⟨rfl, ?_⟩
        have hr2 : r2 = ⟨"S", "simple", "", 7, "lambert", 0,
            [⟨"s", "material", "7"⟩]⟩ := by
          have := hj
          simp [docSelf] at this
          exact this.symm
        rw [hr2] at he2
        simpa using he2
      | succ j0 => simp [docSelf] at hj)
    (by
      intro e2 he2 _
      simpa using he2)

/-! ## C6 — `LoadMaterialMapping`

`LoadMaterialMapping` (`material_io.cpp:451-466`) walks the `Mapping`
records in document order and inserts each (from, to) pair with
`map.emplace(from, to)` — and `std::map::emplace` inserts only when the
key is not yet present. -/

/-- The mapping table built from the parsed (from, to) pairs. -/
def loadMaterialMapping (pairs : List (String × String)) : List (String × String) :=
  pairs.foldl (fun m p => emplaceMap p.1 p.2 m) []

theorem alookup_foldEmplaceMap (pairs : List (String × String)) :
    ∀ (acc : List (String × String)) (k : String),
      alookup k (pairs.foldl (fun m p => emplaceMap p.1 p.2 m) acc) =
        match alookup k acc with
        | some v => some v
        | none => List.lookup k pairs := by
  induction pairs with
  | nil =>
    intro acc k
    cases h : alookup k acc <;> simp [h, List.lookup]
  | cons p ps ih =>
    intro acc k
    obtain ⟨pk, pv⟩ := p
    rw [List.foldl_cons, ih]
    cases ha : alookup k acc with
    | some v =>
      have hkeep : alookup k (emplaceMap pk pv acc) = some v := by
        unfold emplaceMap
        cases hp : alookup pk acc
        · rw [alookup_append, ha]
        · exact ha
      rw [hkeep]
    | none =>
      by_cases hkp : pk = k
      · subst hkp
        have hins : alookup pk (emplaceMap pk pv acc) = some pv := by
          unfold emplaceMap
          rw [ha, alookup_append, ha]
          simp
        rw [hins]
        simp [List.lookup]
      · have hnone : alookup k (emplaceMap pk pv acc) = none := by
          unfold emplaceMap
          cases hp : alookup pk acc
          · rw [alookup_append, ha]
            simp [hkp]
          · exact ha
        rw [hnone]
        have hbk : (k == pk) = false := by
          simp
          exact fun hkk => hkp hkk.symm
        simp [List.lookup, hbk]

/-- C6, counterexample: the claim says a duplicated `from` key is bound
to the last-declared `to` value, so on the pairs (a, x), (a, y) the
table would map a to y; the emplace-built table maps it to x. -/
theorem C6_duplicate_from_keeps_first :
    alookup "a" (loadMaterialMapping [("a", "x"), ("a", "y")]) = some "x" ∧
      alookup "a" (loadMaterialMapping [("a", "x"), ("a", "y")]) ≠ some "y" := by
  refine ⟨rfl, ?_⟩
  intro h
  rw [show alookup "a" (loadMaterialMapping [("a", "x"), ("a", "y")]) = some "x" from rfl]
      at h
  simp at h

/-- C6 (amended): duplicate `from` keys resolve to the FIRST-declared
`to` value in document order — the table lookup agrees with the first
matching pair of the parsed list, because `std::map::emplace` never
overwrites an existing binding. -/
theorem C6_first_declaration_wins (pairs : List (String × String)) (k : String) :
    alookup k (loadMaterialMapping pairs) = List.lookup k pairs := by
  unfold loadMaterialMapping
  rw [alookup_foldEmplaceMap pairs [] k]
  rfl

/-! ## C7 — texture deduplication in the writer

`WriteInput` (`material_io.cpp:78-119`) prints one value per input.  For
a texture it first probes `m_tex2name` by the asset (reference
identity); a hit reuses the remembered name, a miss persists the image
under a freshly generated name — the asset's pointer value followed by
the fixed extension `.jpg` — and remembers it.  `SaveMaterials` clears
`m_tex2name` before the record loop (`material_io.cpp:203`), so the
cache never survives a call.  Texture assets are modelled by their
identity (`Nat`); `saved` is the trace of `ImageIo::SaveImage` calls
`(path, asset)` in call order. -/

/-- A value handed to `WriteInput`: float payload (kept as its printed
text), texture asset, or material reference (printed as its numeric
identity). -/
inductive WVal where
  | f4 (s : String)
  | tex (t : Nat)
  | mat (m : Nat)
deriving DecidableEq

/-- Writer-side instance state: `m_tex2name` plus the image-save trace. -/
structure WState where
  tex2name : List (Nat × String)
  saved : List (String × Nat)
deriving DecidableEq

/-- The generated resource name: asset identity plus the `.jpg`
extension (`material_io.cpp:101-102`). -/
def genTexName (t : Nat) : String := toString t ++ ".jpg"

/-- One `WriteInput` call: the updated state and the printed `value`
attribute. -/
def writeInput (st : WState) (v : WVal) : WState × String :=
  match v with
  | .f4 s => (st, s)
  | .tex t =>
    match alookup t st.tex2name with
    | some n => (st, n)
    | none =>
      ({ tex2name := mapInsert t (genTexName t) st.tex2name,
         saved := st.saved ++ [(genTexName t, t)] }, genTexName t)
  | .mat m => (st, toString m)

/-- The sequence of `WriteInput` calls a save pass makes, with the
printed values in order. -/
def writeSeq : WState → List WVal → WState × List String
  | st, [] => (st, [])
  | st, v :: vs =>
    ((writeSeq (writeInput st v).1 vs).1,
      (writeInput st v).2 :: (writeSeq (writeInput st v).1 vs).2)

/-- Function `SaveMaterials` as it affects textures: clear `m_tex2name`, then run
the write pass; the first argument is the instance state left over from
any earlier call, discarded by the clear. -/
def saveMaterialsW (_prev : WState) (vals : List WVal) : WState × List String :=
  writeSeq { tex2name := [], saved := [] } vals

/-- The value `WriteInput` prints for each input once the cache is
consistent: the float text, the generated texture name, or the material
identity. -/
def outOf : WVal → String
  | .f4 s => s
  | .tex t => genTexName t
  | .mat m => toString m

/-- The writer-state invariant: every cached name is the generated one,
an uncached asset has not been saved, every save used the generated
name, and no asset was saved twice. -/
def WInv (w : WState) : Prop :=
  (∀ t n, alookup t w.tex2name = some n → n = genTexName t) ∧
    (∀ t, alookup t w.tex2name = none → t ∉ w.saved.map Prod.snd) ∧
    (∀ p ∈ w.saved, p.1 = genTexName p.2) ∧
    (w.saved.map Prod.snd).Nodup

theorem writeInput_inv (st : WState) (v : WVal) (hinv : WInv st) :
    WInv (writeInput st v).1 ∧ (writeInput st v).2 = outOf v := by
  obtain ⟨h1, h2, h3, h4⟩ := hinv
  cases v with
  | f4 s => exact ⟨⟨h1, h2, h3, h4⟩, rfl⟩
  | mat m => exact ⟨⟨h1, h2, h3, h4⟩, rfl⟩
  | tex t =>
    cases hl : alookup t st.tex2name with
    | some n =>
      have hred : writeInput st (WVal.tex t) = (st, n) := by
        simp [writeInput, hl]
      rw [hred]
      exact ⟨⟨h1, h2, h3, h4⟩, by simpa [outOf] using h1 t n hl⟩
    | none =>
      have hred : writeInput st (WVal.tex t) =
          ({ tex2name := mapInsert t (genTexName t) st.tex2name,
             saved := st.saved ++ [(genTexName t, t)] }, genTexName t) := by
        simp [writeInput, hl]
      rw [hred]
      refine ⟨⟨?_, ?_, ?_, ?_⟩, rfl⟩
      · intro t2 n2 hn2
        rw [alookup_mapInsert] at hn2
        by_cases ht2 : t = t2
        · subst ht2
          rw [if_pos rfl] at hn2
          exact (Option.some.inj hn2).symm
        · rw [if_neg ht2] at hn2
          exact h1 t2 n2 hn2
      · intro t2 hn2
        rw [alookup_mapInsert] at hn2
        by_cases ht2 : t = t2
        · rw [if_pos ht2] at hn2
          cases hn2
        · rw [if_neg ht2] at hn2
          simp only [List.map_append]
          intro hmem
          rcases List.mem_append.mp hmem with hmem | hmem
          · exact h2 t2 hn2 hmem
          · simp at hmem
            exact ht2 hmem.symm
      · intro p hp
        simp only at hp
        rcases List.mem_append.mp hp with hp | hp
        · exact h3 p hp
        · rw [List.mem_singleton.mp hp]
      · simp only [List.map_append]
        have hnot : t ∉ st.saved.map Prod.snd := h2 t hl
        simp [List.nodup_append, h4, hnot]

theorem writeSeq_inv (vals : List WVal) :
    ∀ (st : WState), WInv st →
      WInv (writeSeq st vals).1 ∧ (writeSeq st vals).2 = vals.map outOf := by
  induction vals with
  | nil =>
    intro st hinv
    exact ⟨hinv, rfl⟩
  | cons v vs ih =>
    intro st hinv
    obtain ⟨hinv1, hout1⟩ := writeInput_inv st v hinv
    obtain ⟨hinv2, hout2⟩ := ih (writeInput st v).1 hinv1
    refine ⟨hinv2, ?_⟩
    rw [writeSeq]
    simp [hout1, hout2]

/-- C7: within one `SaveMaterials` pass every input prints the value
determined by its asset — all inputs referencing one texture share the
generated pointer-plus-`.jpg` name — no asset is persisted twice, every
persisted resource carries the generated name, and the texture-name
cache is reset at the start of each save call, so the result never
depends on instance state left by earlier calls. -/
theorem C7_texture_write_dedup (prev : WState) (vals : List WVal) :
    (saveMaterialsW prev vals).2 = vals.map outOf ∧
      ((saveMaterialsW prev vals).1.saved.map Prod.snd).Nodup ∧
      (∀ p ∈ (saveMaterialsW prev vals).1.saved, p.1 = genTexName p.2) ∧
      (∀ prev2 : WState, saveMaterialsW prev vals = saveMaterialsW prev2 vals) := by
  have hinv0 : WInv { tex2name := [], saved := [] } := by
    refine ⟨?_, ?_, ?_, ?_⟩ <;> simp [alookup]
  obtain ⟨⟨-, -, h3, h4⟩, hout⟩ := writeSeq_inv vals { tex2name := [], saved := [] } hinv0
  exact ⟨hout, h4, h3, fun prev2 => rfl⟩

/-- C7 witness: the statement on a concrete pass that references asset 7
twice — one save, both inputs printing `7.jpg`. -/
theorem C7_texture_write_dedup_w :
    (saveMaterialsW ⟨[(3, "stale.jpg")], [("stale.jpg", 3)]⟩
        [WVal.tex 7, WVal.f4 "0 0 0 1", WVal.tex 7, WVal.mat 3]).2 =
      [WVal.tex 7, WVal.f4 "0 0 0 1", WVal.tex 7, WVal.mat 3].map outOf ∧
      ((saveMaterialsW ⟨[(3, "stale.jpg")], [("stale.jpg", 3)]⟩
          [WVal.tex 7, WVal.f4 "0 0 0 1", WVal.tex 7, WVal.mat 3]).1.saved.map
        Prod.snd).Nodup ∧
      (∀ p ∈ (saveMaterialsW ⟨[(3, "stale.jpg")], [("stale.jpg", 3)]⟩
          [WVal.tex 7, WVal.f4 "0 0 0 1", WVal.tex 7, WVal.mat 3]).1.saved,
        p.1 = genTexName p.2) ∧
      (∀ prev2 : WState, saveMaterialsW ⟨[(3, "stale.jpg")], [("stale.jpg", 3)]⟩
          [WVal.tex 7, WVal.f4 "0 0 0 1", WVal.tex 7, WVal.mat 3] =
        saveMaterialsW prev2 [WVal.tex 7, WVal.f4 "0 0 0 1", WVal.tex 7, WVal.mat 3]) :=
  C7_texture_write_dedup ⟨[(3, "stale.jpg")], [("stale.jpg", 3)]⟩
    [WVal.tex 7, WVal.f4 "0 0 0 1", WVal.tex 7, WVal.mat 3]

/-! ## C8 — `ReplaceSceneMaterials`

`ReplaceSceneMaterials` (`material_io.cpp:415-449`) first builds
`name2mat` from the loaded iterator with `name2mat[name] = material`
(later materials with the same name overwrite earlier ones), then walks
the shapes: a shape with no material is skipped; otherwise the current
material's name is looked up in the mapping, the mapping's target in
`name2mat`, and only when both lookups hit is the shape re-bound.
Loaded materials are modelled by name plus identity; a shape is its
optional material reference. -/

/-- A loaded material as the mapping-apply code sees it: its name and
its identity. -/
structure LMat where
  name : String
  ident : Nat
deriving DecidableEq

/-- The `name2mat` table: last declaration of a name wins. -/
def buildName2Mat (mats : List LMat) : List (String × LMat) :=
  mats.foldl (fun m a => mapInsert a.name a m) []

/-- The last material in the list carrying the given name. -/
def lastWithName : List LMat → String → Option LMat
  | [], _ => none
  | a :: as, n =>
    match lastWithName as n with
    | some b => some b
    | none => if a.name = n then some a else none

/-- The per-shape body of the shape loop. -/
def replaceShape (n2m : List (String × LMat)) (mapping : List (String × String))
    (sh : Option LMat) : Option LMat :=
  match sh with
  | none => none
  | some m =>
    match alookup m.name mapping with
    | none => some m
    | some tgt =>
      match alookup tgt n2m with
      | none => some m
      | some m2 => some m2

/-- The whole `ReplaceSceneMaterials` call over the scene's shapes. -/
def replaceSceneMaterials (shapes : List (Option LMat)) (mats : List LMat)
    (mapping : List (String × String)) : List (Option LMat) :=
  shapes.map (replaceShape (buildName2Mat mats) mapping)

theorem alookup_buildName2Mat (mats : List LMat) :
    ∀ (acc : List (String × LMat)) (n : String),
      alookup n (mats.foldl (fun m a => mapInsert a.name a m) acc) =
        match lastWithName mats n with
        | some b => some b
        | none => alookup n acc := by
  induction mats with
  | nil =>
    intro acc n
    cases h : alookup n acc <;> simp [lastWithName, h]
  | cons a as ih =>
    intro acc n
    rw [List.foldl_cons, ih]
    cases hl : lastWithName as n with
    | some b => simp [lastWithName, hl]
    | none =>
      simp only [lastWithName, hl]
      rw [alookup_mapInsert]
      by_cases ha : a.name = n <;> simp [ha]

theorem lastWithName_spec (n : String) : ∀ (mats : List LMat),
    (∀ b, lastWithName mats n = some b → b ∈ mats ∧ b.name = n) ∧
      (lastWithName mats n = none → ∀ m2 ∈ mats, m2.name ≠ n) := by
  intro mats
  induction mats with
  | nil =>
    refine ⟨?_, ?_⟩
    · intro b hb
      cases hb
    · intro _ m2 h2
      simp at h2
  | cons a as ih =>
    obtain ⟨ih1, ih2⟩ := ih
    refine ⟨?_, ?_⟩
    · intro b hb
      rw [lastWithName] at hb
      cases hl : lastWithName as n with
      | some c =>
        rw [hl] at hb
        have hbc : c = b := Option.some.inj hb
        subst hbc
        obtain ⟨hm, hn⟩ := ih1 c hl
        exact ⟨List.mem_cons.mpr (Or.inr hm), hn⟩
      | none =>
        rw [hl] at hb
        by_cases ha : a.name = n
        · rw [if_pos ha] at hb
          have hab : a = b := Option.some.inj hb
          subst hab
          exact ⟨List.mem_cons_self a as, ha⟩
        · rw [if_neg ha] at hb
          cases hb
    · intro hnone m2 h2
      rw [lastWithName] at hnone
      cases hl : lastWithName as n with
      | some c =>
        rw [hl] at hnone
        cases hnone
      | none =>
        rw [hl] at hnone
        by_cases ha : a.name = n
        · rw [if_pos ha] at hnone
          cases hnone
        · rw [if_neg ha] at hnone
          rcases List.mem_cons.mp h2 with h2 | h2
          · subst h2
            exact ha
          · exact ih2 hl m2 h2

/-- C8: a shape is re-bound only when its current material name is a
mapping key whose target name exists among the loaded materials — and
then to the table's node for that name, the last loaded material so
named; a shape with no material, an unmapped name, or a mapping target
absent from the loaded set is left unchanged, and no case fails. -/
theorem C8_rebind_only_mapped (shapes : List (Option LMat)) (mats : List LMat)
    (mapping : List (String × String)) (i : Nat) :
    (shapes[i]? = some none →
      (replaceSceneMaterials shapes mats mapping)[i]? = some none) ∧
      (∀ m, shapes[i]? = some (some m) → alookup m.name mapping = none →
        (replaceSceneMaterials shapes mats mapping)[i]? = some (some m)) ∧
      (∀ m tgt, shapes[i]? = some (some m) → alookup m.name mapping = some tgt →
        (∀ m2 ∈ mats, m2.name ≠ tgt) →
        (replaceSceneMaterials shapes mats mapping)[i]? = some (some m)) ∧
      (∀ m tgt, shapes[i]? = some (some m) → alookup m.name mapping = some tgt →
        (∃ m2 ∈ mats, m2.name = tgt) →
        ∃ m2, lastWithName mats tgt = some m2 ∧ m2 ∈ mats ∧ m2.name = tgt ∧
          (replaceSceneMaterials shapes mats mapping)[i]? = some (some m2)) := by
  have hmap : ∀ v, shapes[i]? = some v →
      (replaceSceneMaterials shapes mats mapping)[i]? =
        some (replaceShape (buildName2Mat mats) mapping v) := by
    intro v hv
    unfold replaceSceneMaterials
    rw [List.getElem?_map, hv]
    rfl
  have hn2m : ∀ tgt, alookup tgt (buildName2Mat mats) = lastWithName mats tgt := by
    intro tgt
    unfold buildName2Mat
    rw [alookup_buildName2Mat mats [] tgt]
    cases h : lastWithName mats tgt <;> simp
  refine ⟨?_, ?_, ?_, ?_⟩
  · intro hv
    rw [hmap none hv]
    rfl
  · intro m hv hm
    rw [hmap (some m) hv]
    simp [replaceShape, hm]
  · intro m tgt hv hm habs
    rw [hmap (some m) hv]
    have hlast : lastWithName mats tgt = none := by
      cases hl : lastWithName mats tgt with
      | none => rfl
      | some b =>
        obtain ⟨hbm, hbn⟩ := (lastWithName_spec tgt mats).1 b hl
        exact absurd hbn (habs b hbm)
    simp [replaceShape, hm, hn2m, hlast]
  · intro m tgt hv hm hex
    have hlast : ∃ b, lastWithName mats tgt = some b := by
      cases hl : lastWithName mats tgt with
      | some b => exact ⟨b, rfl⟩
      | none =>
        obtain ⟨m2, hm2, hm2n⟩ := hex
        exact absurd hm2n ((lastWithName_spec tgt mats).2 hl m2 hm2)
    obtain ⟨b, hb⟩ := hlast
    obtain ⟨hbm, hbn⟩ := (lastWithName_spec tgt mats).1 b hb
    refine ⟨b, hb, hbm, hbn, ?_⟩
    rw [hmap (some m) hv]
    simp [replaceShape, hm, hn2m, hb]

/-- C8 witness: a four-shape scene.  Shape 0 has a mapped name whose
target exists (re-bound to the last loaded `metal`), shape 1 has no
material, shape 2 maps to an absent name and shape 3 is unmapped. -/
theorem C8_rebind_only_mapped_w :
    (([some ⟨"red", 0⟩, none, some ⟨"blue", 1⟩, some ⟨"green", 2⟩] :
        List (Option LMat))[0]? = some none →
      (replaceSceneMaterials [some ⟨"red", 0⟩, none, some ⟨"blue", 1⟩, some ⟨"green", 2⟩]
        [⟨"metal", 10⟩, ⟨"metal", 11⟩]
        [("red", "metal"), ("blue", "missing")])[0]? = some none) ∧
      (∀ m, ([some ⟨"red", 0⟩, none, some ⟨"blue", 1⟩, some ⟨"green", 2⟩] :
          List (Option LMat))[0]? = some (some m) →
        alookup m.name [("red", "metal"), ("blue", "missing")] = none →
        (replaceSceneMaterials [some ⟨"red", 0⟩, none, some ⟨"blue", 1⟩, some ⟨"green", 2⟩]
          [⟨"metal", 10⟩, ⟨"metal", 11⟩]
          [("red", "metal"), ("blue", "missing")])[0]? = some (some m)) ∧
      (∀ m tgt, ([some ⟨"red", 0⟩, none, some ⟨"blue", 1⟩, some ⟨"green", 2⟩] :
          List (Option LMat))[0]? = some (some m) →
        alookup m.name [("red", "metal"), ("blue", "missing")] = some tgt →
        (∀ m2 ∈ ([⟨"metal", 10⟩, ⟨"metal", 11⟩] : List LMat), m2.name ≠ tgt) →
        (replaceSceneMaterials [some ⟨"red", 0⟩, none, some ⟨"blue", 1⟩, some ⟨"green", 2⟩]
          [⟨"metal", 10⟩, ⟨"metal", 11⟩]
          [("red", "metal"), ("blue", "missing")])[0]? = some (some m)) ∧
      (∀ m tgt, ([some ⟨"red", 0⟩, none, some ⟨"blue", 1⟩, some ⟨"green", 2⟩] :
          List (Option LMat))[0]? = some (some m) →
        alookup m.name [("red", "metal"), ("blue", "missing")] = some tgt →
        (∃ m2 ∈ ([⟨"metal", 10⟩, ⟨"metal", 11⟩] : List LMat), m2.name = tgt) →
        ∃ m2, lastWithName [⟨"metal", 10⟩, ⟨"metal", 11⟩] tgt = some m2 ∧
          m2 ∈ ([⟨"metal", 10⟩, ⟨"metal", 11⟩] : List LMat) ∧ m2.name = tgt ∧
          (replaceSceneMaterials [some ⟨"red", 0⟩, none, some ⟨"blue", 1⟩, some ⟨"green", 2⟩]
            [⟨"metal", 10⟩, ⟨"metal", 11⟩]
            [("red", "metal"), ("blue", "missing")])[0]? = some (some m2)) :=
  C8_rebind_only_mapped [some ⟨"red", 0⟩, none, some ⟨"blue", 1⟩, some ⟨"green", 2⟩]
    [⟨"metal", 10⟩, ⟨"metal", 11⟩] [("red", "metal"), ("blue", "missing")] 0

end MatIo
